import Mathlib

/-!
# Verification of the clustering-service core

Shallow embedding of the clustering service (`encoding.py`, `clustering.py`,
`main.py`): outcome encoding, attribute encoding (type inference, one-hot /
boolean / numerical columns, whole-matrix standardization), weighted vector
composition with epsilon-guarded row normalization, sklearn-style cosine
similarity, and the two-level taxonomy assembly of `perform_clustering`.

Numeric conventions: Python floats are modelled as exact rationals (`ℚ`) on
the input side and as real numbers (`ℝ`) wherever the code divides by an L2
norm or a standard deviation (both involve square roots).  Python exceptions
(`ValueError`, `KeyError`) are modelled with `Except`.

The scipy primitive `fcluster(linkage(condensed), k, criterion='maxclust')`
is third-party code; it is abstracted as a function argument
`cut : List (List ℝ) → ℕ → List ℕ` taking a distance matrix and a requested
group count and returning one integer label per row, which is the interface
`clustering.py` relies on.  Theorems about the taxonomy quantify over every
such `cut` that returns one label per observation, so they hold in
particular for the scipy implementation.
-/

namespace ClusteringService

/-- Attribute values as accepted by the service: Python `bool`, numbers
(`int`/`float`, modelled as `ℚ`), or strings.  (`attributes` maps may also
carry an explicit `None`, modelled as `Option AttrVal` at the use site.) -/
inductive AttrVal where
  | bool (b : Bool)
  | num (q : ℚ)
  | str (s : String)
deriving DecidableEq

/-- One conversation record, per the `Conversation` model in `main.py`. -/
structure Conv where
  id : String
  semantic_embedding : List ℚ
  attributes : List (String × Option AttrVal)
  outcome : String
deriving DecidableEq

/-- The weight triple passed to `create_weighted_vectors`. -/
structure Weights where
  semantic : ℝ
  attributes : ℝ
  outcome : ℝ

/-- Python exceptions raised by the pipeline: the explicit `ValueError` for
fewer than 2 conversations (`clustering.py` line 33), the `KeyError` from
`categorical_values[key]` (`encoding.py` line 106), and the `ValueError`
from `float(val)` on a string value in a numerical column. -/
inductive PipeError where
  | tooFewConversations
  | keyError
  | valueError
deriving DecidableEq

/-- ASCII lower-casing of one character (models `str.lower()` on the ASCII
strings the service compares against). -/
def lowerChar (c : Char) : Char :=
  if 'A' ≤ c ∧ c ≤ 'Z' then Char.ofNat (c.toNat + 32) else c

/-- `s.lower()` for the outcome strings. -/
def lowerStr (s : String) : String := ⟨s.data.map lowerChar⟩

/-- `encode_outcome`: the dictionary lookup with default 0.5
(`encoding.py` lines 19-24). -/
def encodeOutcome (o : String) : ℚ :=
  if lowerStr o = "satisfied" then 1
  else if lowerStr o = "unsatisfied" then 0
  else if lowerStr o = "unclear" then 1/2
  else 1/2

/-- `conv.get('attributes', {}).get(key)`: both a missing key and an
explicit `None` value yield `none`. -/
def lookupAttr (c : Conv) (key : String) : Option AttrVal :=
  match c.attributes.lookup key with
  | some v => v
  | none => none

/-- Python truthiness of an attribute value, as used by
`1.0 if val else 0.0` in the boolean column (`encoding.py` line 91). -/
def truthy : Option AttrVal → Bool
  | none => false
  | some (.bool b) => b
  | some (.num q) => decide (q ≠ 0)
  | some (.str s) => decide (s ≠ "")

/-- Insert into a sorted list (helper for `sortBy`). -/
def insertSorted (le : α → α → Bool) (x : α) : List α → List α
  | [] => [x]
  | y :: ys => if le x y then x :: y :: ys else y :: insertSorted le x ys

/-- Insertion sort with a boolean comparator; models Python `sorted`.
(Only the multiset of elements matters for the theorems below.) -/
def sortBy (le : α → α → Bool) : List α → List α
  | [] => []
  | x :: xs => insertSorted le x (sortBy le xs)

/-- Code-point lexicographic order on character lists (Python string order). -/
def charListLe : List Char → List Char → Bool
  | [], _ => true
  | _ :: _, [] => false
  | a :: as, b :: bs => if a < b then true else if b < a then false else charListLe as bs

/-- Python `<=` on strings. -/
def keyLe (a b : String) : Bool := charListLe a.data b.data

/-- The union of attribute keys over the batch (`encoding.py` lines 50-52). -/
def allKeys (convs : List Conv) : List String :=
  (convs.foldl (fun acc c => acc ++ c.attributes.map Prod.fst) []).dedup

/-- `sorted(list(all_keys))` (`encoding.py` line 58). -/
def sortedKeys (convs : List Conv) : List String := sortBy keyLe (allKeys convs)

/-- The first non-null value for `key`, scanning conversations in input
order — the type scan of `encoding.py` lines 64-77 `break`s at the first
non-null value, so this single value also determines the whole content of
`categorical_values[key]`. -/
def firstNonNull (convs : List Conv) (key : String) : Option AttrVal :=
  convs.findSome? (fun c => lookupAttr c key)

/-- One entry of a numerical column: `float(val) if val is not None else 0.0`
(`encoding.py` line 100).  `float()` of a Python string raises `ValueError`
for non-numeric strings; numeric strings are not modelled. -/
def numEntry : Option AttrVal → Except PipeError ℚ
  | none => .ok 0
  | some (.num q) => .ok q
  | some (.bool b) => .ok (if b then 1 else 0)
  | some (.str _) => .error .valueError

/-- Effectful map over a list in the `Except` monad (first error wins),
mirroring the sequential loops of the source. -/
def mapE (f : α → Except PipeError β) : List α → Except PipeError (List β)
  | [] => .ok []
  | x :: xs => do
    let y ← f x
    let ys ← mapE f xs
    .ok (y :: ys)

/-- The feature columns contributed by one key (`encoding.py` lines 83-113):
a boolean key gives one truthiness column; a numerical key gives one raw
column; a categorical key one-hots over `sorted(categorical_values[key])`,
which holds only the first observed value (the scan breaks at line 77);
a key with no non-null value anywhere falls back to `'categorical'`
(line 84) and then `categorical_values[key]` raises `KeyError` (line 106). -/
def colsForKey (convs : List Conv) (key : String) :
    Except PipeError (List (List ℚ) × List String) :=
  match firstNonNull convs key with
  | some (.bool _) =>
      .ok ([convs.map (fun c => if truthy (lookupAttr c key) then (1 : ℚ) else 0)], [key])
  | some (.num _) => do
      let col ← mapE (fun c => numEntry (lookupAttr c key)) convs
      .ok ([col], [key])
  | some (.str s) =>
      let uniqueValues := sortBy keyLe [s]
      .ok (uniqueValues.map
             (fun u => convs.map (fun c => if lookupAttr c key = some (.str u) then (1 : ℚ) else 0)),
           uniqueValues.map (fun u => key ++ "=" ++ u))
  | none => .error .keyError

/-- `feature_vectors` and `feature_names` accumulated over the sorted keys
(`encoding.py` lines 79-113); columns are stored column-major as in the
source. -/
def buildFeatureColumns (convs : List Conv) (keys : List String) :
    Except PipeError (List (List ℚ) × List String) := do
  let parts ← mapE (colsForKey convs) keys
  .ok ((parts.map Prod.fst).flatten, (parts.map Prod.snd).flatten)

/-- Column mean (numpy population convention, as used by `StandardScaler`). -/
def meanQ (c : List ℚ) : ℚ := c.sum / c.length

/-- Column population variance (`StandardScaler` uses `ddof = 0`). -/
def varQ (c : List ℚ) : ℚ := (c.map (fun x => (x - meanQ c) ^ 2)).sum / c.length

/-- `StandardScaler` on one column: subtract the mean, divide by the
standard deviation; a zero-variance column divides by 1
(`sklearn._handle_zeros_in_scale`). -/
noncomputable def standardizeCol (c : List ℚ) : List ℝ :=
  c.map (fun x => ((x - meanQ c : ℚ) : ℝ) / (if varQ c = 0 then 1 else Real.sqrt ((varQ c : ℚ) : ℝ)))

/-- Transpose of a column-major matrix into row-major
(`np.array(feature_vectors).T` for rectangular data). -/
noncomputable def transposeRows (cols : List (List ℝ)) : List (List ℝ) :=
  (List.range (cols.headD []).length).map (fun i => cols.map (fun col => col.getD i 0))

/-- `encode_attributes` (`encoding.py` lines 27-125): early returns for an
empty batch and for an empty key set, column building (which can raise, see
`colsForKey`), then `StandardScaler().fit_transform` applied to the whole
matrix — the source scales `encoded_matrix = feature_vectorsᵀ` column-wise,
which equals transposing the standardized columns. -/
noncomputable def encodeAttributes (convs : List Conv) :
    Except PipeError (List (List ℝ) × List String) :=
  if convs.isEmpty then .ok ([], [])
  else
    let keys := sortedKeys convs
    if keys.isEmpty then .ok (List.replicate convs.length [(0 : ℝ)], [])
    else do
      let p ← buildFeatureColumns convs keys
      if p.1.isEmpty then pure (List.replicate convs.length [(0 : ℝ)], [])
      else pure (transposeRows (p.1.map standardizeCol), p.2)

/-- The `1e-8` epsilon guarding the row normalizations in
`create_weighted_vectors`. -/
noncomputable def eps : ℝ := 1 / 100000000

/-- Dot product of two real vectors (excess entries of the longer vector
are ignored; all call sites use equal lengths). -/
noncomputable def dotR : List ℝ → List ℝ → ℝ
  | x :: xs, y :: ys => x * y + dotR xs ys
  | _, _ => 0

/-- `np.linalg.norm(row)`. -/
noncomputable def normR (r : List ℝ) : ℝ := Real.sqrt (dotR r r)

/-- One row of `X / (np.linalg.norm(X, axis=1, keepdims=True) + 1e-8)`
(`encoding.py` lines 198, 202, 207). -/
noncomputable def rowNormEps (r : List ℝ) : List ℝ := r.map (fun x => x / (normR r + eps))

/-- One row of sklearn `normalize`: rows with zero norm are divided by 1
instead (this is what `cosine_similarity` does internally). -/
noncomputable def sklearnNormalizeRow (r : List ℝ) : List ℝ :=
  r.map (fun x => x / (if normR r = 0 then 1 else normR r))

/-- `sklearn.metrics.pairwise.cosine_similarity`: normalize all rows, then
take all pairwise dot products. -/
noncomputable def cosineSimilarity (X : List (List ℝ)) : List (List ℝ) :=
  (X.map sklearnNormalizeRow).map (fun ri =>
    (X.map sklearnNormalizeRow).map (fun rj => dotR ri rj))

/-- `create_weighted_vectors` (`encoding.py` lines 166-221): each block is
row-normalized with the epsilon guard (attributes fall back to a zero
column when the attribute matrix has width 0), weighted, and concatenated
semantic ++ attributes ++ outcome. -/
noncomputable def createWeightedVectors (S A O : List (List ℝ)) (w : Weights) :
    List (List ℝ) :=
  let attrNorm := if 0 < (A.headD []).length then A.map rowNormEps
                  else List.replicate S.length [(0 : ℝ)]
  (S.zip (attrNorm.zip O)).map (fun p =>
    (rowNormEps p.1).map (fun x => w.semantic * x) ++
    (p.2.1.map (fun x => w.attributes * x) ++
     (rowNormEps p.2.2).map (fun x => w.outcome * x)))

/-- The similarity matrix computed at `clustering.py` line 53 and returned
as the third component of `perform_clustering`. -/
noncomputable def simOf (S A O : List (List ℝ)) (w : Weights) : List (List ℝ) :=
  cosineSimilarity (createWeightedVectors S A O w)

/-- Boolean `≤` on labels, for `np.unique`'s sorting. -/
def natLe (a b : ℕ) : Bool := decide (a ≤ b)

/-- `np.unique`: the sorted list of distinct labels. -/
def uniqueSorted (l : List ℕ) : List ℕ := sortBy natLe l.dedup

/-- `np.where(labels == c)[0]`: the indices carrying label `c`, ascending. -/
def idxWhere (l : List ℕ) (c : ℕ) : List ℕ :=
  (List.range l.length).filter (fun i => decide (l.getD i 0 = c))

/-- `cluster_indices[sub_mask]` (`clustering.py` line 98): the original
indices of the positions whose sub-label equals `s`. -/
def selectIdx (idxs : List ℕ) (subLabels : List ℕ) (s : ℕ) : List ℕ :=
  (idxWhere subLabels s).map (fun j => idxs.getD j 0)

/-- Matrix entry with out-of-range access reading 0. -/
noncomputable def entry (M : List (List ℝ)) (i j : ℕ) : ℝ := (M.getD i []).getD j 0

/-- `np.unique(labels)` paired with the index set of each label
(`clustering.py` lines 66-68, 72-74). -/
def buildGroups (labels : List ℕ) : List (ℕ × List ℕ) :=
  (uniqueSorted labels).map (fun c => (c, idxWhere labels c))

/-- `high_level_clusters` (`clustering.py` lines 65-68). -/
def buildHigh (ids : List String) (groups : List (ℕ × List ℕ)) :
    List (String × List String) :=
  groups.map (fun g => (toString g.1, g.2.map (fun i => ids.getD i "")))

/-- The subcluster map of one top-level group (`clustering.py` lines
72-101): singleton groups are emitted unchanged as subcluster `"0"`; larger
groups are re-cut on their distance submatrix. -/
noncomputable def buildSubsEntry (cut : List (List ℝ) → ℕ → List ℕ)
    (ids : List String) (dist : List (List ℝ)) (numSub : ℕ) (g : ℕ × List ℕ) :
    String × List (String × List String) :=
  (toString g.1,
   if g.2.length < 2 then
     [("0", g.2.map (fun i => ids.getD i ""))]
   else
     let subD := g.2.map (fun i => g.2.map (fun j => entry dist i j))
     let subLabels := cut subD (min numSub (g.2.length - 1))
     (uniqueSorted subLabels).map (fun s =>
       (toString s, (selectIdx g.2 subLabels s).map (fun i => ids.getD i ""))))

/-- `subclusters` (`clustering.py` lines 71-101). -/
noncomputable def buildSubs (cut : List (List ℝ) → ℕ → List ℕ)
    (ids : List String) (dist : List (List ℝ)) (numSub : ℕ)
    (groups : List (ℕ × List ℕ)) : List (String × List (String × List String)) :=
  groups.map (buildSubsEntry cut ids dist numSub)

/-- Everything `perform_clustering` computes: the two cluster maps, the
similarity matrix, and (for instrumentation) the list of
`(subset size, requested group count)` pairs passed to the flat-cut
primitive, top level first. -/
structure ClusterOutput where
  high : List (String × List String)
  subs : List (String × List (String × List String))
  sim : List (List ℝ)
  callLog : List (ℕ × ℕ)

/-- `perform_clustering` (`clustering.py` lines 12-103), parameterized by
the flat-cut primitive `cut` (scipy `linkage` + `fcluster`, see the module
docstring).  The call log records the size of the index subset and the
requested cluster count of each `fcluster` invocation. -/
noncomputable def performClusteringAux (cut : List (List ℝ) → ℕ → List ℕ)
    (convs : List Conv) (w : Weights) (numHigh numSub : ℕ) :
    Except PipeError ClusterOutput :=
  if convs.length < 2 then .error .tooFewConversations
  else do
    let ids := convs.map (fun c => c.id)
    let S := convs.map (fun c => c.semantic_embedding.map (fun q => (q : ℝ)))
    let O := convs.map (fun c => [((encodeOutcome c.outcome : ℚ) : ℝ)])
    let Ap ← encodeAttributes convs
    let sim := simOf S Ap.1 O w
    let dist := sim.map (fun row => row.map (fun x => 1 - x))
    let nHigh := min numHigh (convs.length - 1)
    let labels := cut dist nHigh
    let groups := buildGroups labels
    let high := buildHigh ids groups
    let subs := buildSubs cut ids dist numSub groups
    let callLog := (convs.length, nHigh) ::
      groups.filterMap (fun g =>
        if g.2.length < 2 then none
        else some (g.2.length, min numSub (g.2.length - 1)))
    pure ⟨high, subs, sim, callLog⟩

/-- The value `perform_clustering` returns:
`(high_level_clusters, subclusters, similarity_matrix)`. -/
noncomputable def performClustering (cut : List (List ℝ) → ℕ → List ℕ)
    (convs : List Conv) (w : Weights) (numHigh numSub : ℕ) :
    Except PipeError
      (List (String × List String) ×
       List (String × List (String × List String)) × List (List ℝ)) :=
  (performClusteringAux cut convs w numHigh numSub).map (fun r => (r.high, r.subs, r.sim))

/-- The instrumented view of the same computation: the arguments passed to
the flat-cut primitive. -/
noncomputable def performClusteringCuts (cut : List (List ℝ) → ℕ → List ℕ)
    (convs : List Conv) (w : Weights) (numHigh numSub : ℕ) :
    Except PipeError (List (ℕ × ℕ)) :=
  (performClusteringAux cut convs w numHigh numSub).map (fun r => r.callLog)

/-- All member lists of the subcluster map, in iteration order. -/
def memberLists (subs : List (String × List (String × List String))) :
    List (List String) :=
  (subs.map (fun cs => cs.2.map (fun sl => sl.2))).flatten

/-- The concatenation of every subcluster member list. -/
def allMembers (subs : List (String × List (String × List String))) : List String :=
  (memberLists subs).flatten

/-- The (top-cluster id, subcluster id) pairs whose member list contains `x`. -/
def pairsOf (subs : List (String × List (String × List String))) (x : String) :
    List (String × String) :=
  (subs.map (fun cs =>
    (cs.2.filter (fun sl => decide (x ∈ sl.2))).map (fun sl => (cs.1, sl.1)))).flatten

/-- A trivial flat-cut instance (every observation gets label 1), used to
instantiate the `cut`-parametric theorems at concrete inputs. -/
def cut0 : List (List ℝ) → ℕ → List ℕ := fun D _ => List.replicate D.length 1

end ClusteringService

namespace ClusteringService

/-! ## Concrete inputs used by the claim theorems and witnesses -/

/-- Two records with a categorical key observed as `"a"` then `"b"`. -/
def convC1a : Conv := ⟨"r1", [0], [("k", some (.str "a"))], "unclear"⟩

/-- Companion record of `convC1a`. -/
def convC1b : Conv := ⟨"r2", [0], [("k", some (.str "b"))], "unclear"⟩

/-- Two records with a boolean key, `true` then `false`. -/
def convC3a : Conv := ⟨"r1", [0], [("b", some (.bool true))], "unclear"⟩

/-- Companion record of `convC3a`. -/
def convC3b : Conv := ⟨"r2", [0], [("b", some (.bool false))], "unclear"⟩

/-- A record whose attribute key `"m"` carries an explicit null. -/
def convC4a : Conv := ⟨"r1", [0], [("m", none)], "unclear"⟩

/-- Companion record of `convC4a`: the key `"m"` is null everywhere. -/
def convC4b : Conv := ⟨"r2", [0], [("m", none)], "unclear"⟩

/-- A 2-record batch whose key `"k"` has no non-null value anywhere. -/
def convC6a : Conv := ⟨"x1", [0], [("k", none)], "unclear"⟩

/-- Companion record of `convC6a` (no attributes at all). -/
def convC6b : Conv := ⟨"x2", [0], [], "unclear"⟩

/-- A minimal valid batch: two records, no attributes, zero embeddings. -/
def convs0 : List Conv :=
  [⟨"a", [0], [], "unsatisfied"⟩, ⟨"b", [0], [], "unsatisfied"⟩]

/-- The default weight triple of the service (0.65 / 0.25 / 0.10). -/
noncomputable def wDefault : Weights := ⟨65 / 100, 25 / 100, 10 / 100⟩

/-- The all-zero weight triple. -/
noncomputable def wZero : Weights := ⟨0, 0, 0⟩

-- temporary probes
example : encodeOutcome "satisfied" = 1 := by decide
example : encodeOutcome "Satisfied" = 1 := by decide
example : encodeOutcome "whatever" = 1/2 := rfl
example : encodeAttributes [convC4a, convC4b] = .error .keyError := rfl
example : buildFeatureColumns [convC1a, convC1b] (sortedKeys [convC1a, convC1b]) =
    .ok ([[1, 0]], ["k=a"]) := rfl
example : buildFeatureColumns [convC3a, convC3b] (sortedKeys [convC3a, convC3b]) =
    .ok ([[1, 0]], ["b"]) := rfl
example : encodeAttributes convs0 = .ok (List.replicate 2 [(0 : ℝ)], []) := rfl
example : varQ [1, 0] = 1/4 := by norm_num [varQ, meanQ]
example : meanQ [1, 0] = 1/2 := by norm_num [meanQ]

end ClusteringService

namespace ClusteringService

/-! ## Basic lemmas about dot products and norms -/

theorem dotR_nil_right (a : List ℝ) : dotR a [] = 0 := by cases a <;> rfl

theorem dotR_comm (a b : List ℝ) : dotR a b = dotR b a := by
  induction a generalizing b with
  | nil => cases b <;> simp [dotR]
  | cons x xs ih =>
    cases b with
    | nil => simp [dotR]
    | cons y ys => simp [dotR, ih, mul_comm]

theorem dotR_self_nonneg (a : List ℝ) : 0 ≤ dotR a a := by
  induction a with
  | nil => simp [dotR]
  | cons x xs ih => simpa [dotR] using add_nonneg (mul_self_nonneg x) ih

theorem dotR_zero_left (a : List ℝ) (h : ∀ x ∈ a, x = 0) (b : List ℝ) :
    dotR a b = 0 := by
  induction a generalizing b with
  | nil => cases b <;> simp [dotR]
  | cons x xs ih =>
    cases b with
    | nil => simp [dotR]
    | cons y ys =>
      have hx : x = 0 := h x (by simp)
      have hxs := ih (fun z hz => h z (by simp [hz])) ys
      simp [dotR, hx, hxs]

theorem dotR_zero_right (a b : List ℝ) (h : ∀ x ∈ b, x = 0) : dotR a b = 0 := by
  rw [dotR_comm]; exact dotR_zero_left b h a

theorem eq_zero_of_dotR_self (a : List ℝ) (h : dotR a a = 0) : ∀ x ∈ a, x = 0 := by
  induction a with
  | nil => simp
  | cons x xs ih =>
    have h1 : x * x + dotR xs xs = 0 := h
    have hx2 : 0 ≤ x * x := mul_self_nonneg x
    have hxs : 0 ≤ dotR xs xs := dotR_self_nonneg xs
    have hx : x * x = 0 := by linarith
    have hrest : dotR xs xs = 0 := by linarith
    intro z hz
    rcases List.mem_cons.mp hz with rfl | hz
    · exact mul_self_eq_zero.mp hx
    · exact ih hrest z hz

theorem normR_nonneg (r : List ℝ) : 0 ≤ normR r := Real.sqrt_nonneg _

theorem normR_eq_zero_iff (r : List ℝ) : normR r = 0 ↔ dotR r r = 0 := by
  unfold normR
  constructor
  · intro h
    exact le_antisymm (Real.sqrt_eq_zero'.mp h) (dotR_self_nonneg r)
  · intro h; rw [h, Real.sqrt_zero]

theorem eps_pos : (0 : ℝ) < eps := by norm_num [eps]

/-! ## C4, C6: the KeyError on an all-null attribute key -/

/-- C4: the claim says a key that is null in every record is degraded to an
empty one-hot block and `encode_attributes` returns normally; in the code
`attribute_types.get(key, 'categorical')` falls back to `'categorical'` but
`categorical_values[key]` then raises `KeyError` — the evaluation below
shows the pipeline errors instead of returning. -/
theorem all_null_attribute_key_raises :
    encodeAttributes [convC4a, convC4b] = .error .keyError := rfl

/-- C6: inputs with fewer than 2 records are rejected up front with the
dedicated `ValueError` and no result is produced; however, the second
conjunct shows a 2-record input (key `"k"` null everywhere) on which the
pipeline raises `KeyError` at that same boundary, contradicting the claim
that nothing else raises there. -/
theorem entry_rejection_and_keyerror :
    (∀ (cut : List (List ℝ) → ℕ → List ℕ) (convs : List Conv) (w : Weights)
        (kh ks : ℕ), convs.length < 2 →
        performClustering cut convs w kh ks = .error .tooFewConversations) ∧
    performClustering cut0 [convC6a, convC6b] wDefault 5 3 = .error .keyError := by
  constructor
  · intro cut convs w kh ks h
    simp [performClustering, performClusteringAux, h, Except.map]
  · rfl

/-- Witness for `entry_rejection_and_keyerror`: a singleton batch is
rejected with the dedicated error. -/
theorem entry_rejection_and_keyerror_witness :
    performClustering cut0 [⟨"solo", [0], [], "unclear"⟩] wDefault 5 3 =
      .error .tooFewConversations :=
  entry_rejection_and_keyerror.1 cut0 [⟨"solo", [0], [], "unclear"⟩] wDefault 5 3
    (by decide)

/-! ## C7: requested cluster counts are clipped, never an error -/

/-- C7: whenever the batch has at least 2 records and attribute encoding
succeeds, `perform_clustering` succeeds for every requested pair of cluster
counts; the top-level cut is asked for exactly `min(num_high_level_clusters,
N-1)` groups and every inner cut for a group of size M ≥ 2 is asked for
exactly `min(num_subclusters_per_cluster, M-1)` groups. -/
theorem cut_counts_clipped (cut : List (List ℝ) → ℕ → List ℕ)
    (convs : List Conv) (w : Weights) (kh ks : ℕ) (hn : 2 ≤ convs.length)
    (A : List (List ℝ)) (names : List String)
    (henc : encodeAttributes convs = .ok (A, names)) :
    ∃ calls, performClusteringCuts cut convs w kh ks = .ok calls ∧
      calls.head? = some (convs.length, min kh (convs.length - 1)) ∧
      ∀ p ∈ calls.tail, 2 ≤ p.1 ∧ p.2 = min ks (p.1 - 1) := by
  have hlt : ¬ convs.length < 2 := by omega
  simp only [performClusteringCuts, performClusteringAux, if_neg hlt, henc,
    Except.bind, Except.map]
  refine ⟨_, rfl, rfl, ?_⟩
  intro p hp
  simp only [List.tail_cons, List.mem_filterMap] at hp
  obtain ⟨g, hg, hsome⟩ := hp
  by_cases hlen : g.2.length < 2
  · simp [hlen] at hsome
  · simp only [if_neg hlen, Option.some.injEq] at hsome
    cases hsome
    exact ⟨by omega, rfl⟩

/-- Witness for `cut_counts_clipped` at a concrete 2-record batch with both
requested counts far above their maxima (they clip to 1). -/
theorem cut_counts_clipped_witness :
    ∃ calls, performClusteringCuts cut0 convs0 wDefault 10 7 = .ok calls ∧
      calls.head? = some (convs0.length, min 10 (convs0.length - 1)) ∧
      ∀ p ∈ calls.tail, 2 ≤ p.1 ∧ p.2 = min 7 (p.1 - 1) :=
  cut_counts_clipped cut0 convs0 wDefault 10 7 (by decide)
    (List.replicate 2 [(0 : ℝ)]) [] rfl

end ClusteringService

namespace ClusteringService

/-! ## C9: the outcome block collapses positive encodings -/

/-- `encode_outcome` only ever produces 0, 0.5 or 1. -/
theorem encodeOutcome_cases (o : String) :
    encodeOutcome o = 0 ∨ encodeOutcome o = 1/2 ∨ encodeOutcome o = 1 := by
  unfold encodeOutcome
  split_ifs <;> norm_num

/-- The epsilon-guarded normalization of a width-1 row `[x]` with `x ≥ 0`. -/
theorem rowNormEps_single (x : ℝ) (hx : 0 ≤ x) :
    (rowNormEps [x]).headD 0 = x / (x + eps) := by
  have hdot : dotR [x] [x] = x * x := by simp [dotR]
  simp [rowNormEps, normR, hdot, Real.sqrt_mul_self hx]

/-- C9: two records differing only in their outcome label, both labels
encoding to positive scalars, get outcome-block values that are each within
`2e-8` of 1.0 and within `1e-8` of each other after the epsilon-guarded
row normalization of `create_weighted_vectors` — the distinct scalars the
outcome map assigns are collapsed. -/
theorem outcome_normalization_collapse (o1 o2 : String)
    (h1 : 0 < encodeOutcome o1) (h2 : 0 < encodeOutcome o2) :
    |(rowNormEps [((encodeOutcome o1 : ℚ) : ℝ)]).headD 0 - 1| ≤ 2 * eps ∧
    |(rowNormEps [((encodeOutcome o2 : ℚ) : ℝ)]).headD 0 - 1| ≤ 2 * eps ∧
    |(rowNormEps [((encodeOutcome o1 : ℚ) : ℝ)]).headD 0 -
      (rowNormEps [((encodeOutcome o2 : ℚ) : ℝ)]).headD 0| ≤ eps := by
  have key : ∀ o : String, 0 < encodeOutcome o →
      ((encodeOutcome o : ℚ) : ℝ) = 1/2 ∨ ((encodeOutcome o : ℚ) : ℝ) = 1 := by
    intro o ho
    rcases encodeOutcome_cases o with h | h | h
    · rw [h] at ho; norm_num at ho
    · left; rw [h]; norm_num
    · right; rw [h]; norm_num
  have hone : ∀ x : ℝ, x = 1/2 ∨ x = 1 → |x / (x + eps) - 1| ≤ 2 * eps := by
    rintro x (rfl | rfl) <;> (rw [abs_le]; constructor <;> norm_num [eps])
  have hpair : ∀ x y : ℝ, x = 1/2 ∨ x = 1 → y = 1/2 ∨ y = 1 →
      |x / (x + eps) - y / (y + eps)| ≤ eps := by
    rintro x y (rfl | rfl) (rfl | rfl) <;> (rw [abs_le]; constructor <;> norm_num [eps])
  have e1 := key o1 h1
  have e2 := key o2 h2
  have hx1 : (0:ℝ) ≤ ((encodeOutcome o1 : ℚ) : ℝ) := by
    rcases e1 with h | h <;> rw [h] <;> norm_num
  have hx2 : (0:ℝ) ≤ ((encodeOutcome o2 : ℚ) : ℝ) := by
    rcases e2 with h | h <;> rw [h] <;> norm_num
  rw [rowNormEps_single _ hx1, rowNormEps_single _ hx2]
  exact ⟨hone _ e1, hone _ e2, hpair _ _ e1 e2⟩

/-- Witness for `outcome_normalization_collapse`: `"satisfied"` (→ 1.0) and
`"unclear"` (→ 0.5) land within `1e-8` of each other. -/
theorem outcome_normalization_collapse_witness :
    |(rowNormEps [((encodeOutcome "satisfied" : ℚ) : ℝ)]).headD 0 -
      (rowNormEps [((encodeOutcome "unclear" : ℚ) : ℝ)]).headD 0| ≤ eps :=
  (outcome_normalization_collapse "satisfied" "unclear"
    (by rw [show encodeOutcome "satisfied" = 1 from rfl]; norm_num)
    (by rw [show encodeOutcome "unclear" = 1/2 from rfl]; norm_num)).2.2

/-! ## C1, C3: what `encode_attributes` actually returns -/

/-- `StandardScaler` on the column `[1, 0]` returns `[1, -1]`. -/
theorem standardizeCol_one_zero : standardizeCol [1, 0] = [1, -1] := by
  have hmean : meanQ [1, 0] = 1/2 := by norm_num [meanQ]
  have hvar : varQ [1, 0] = 1/4 := by norm_num [varQ, meanQ]
  have hsq : Real.sqrt (((1/4 : ℚ) : ℝ)) = 1/2 := by
    rw [show (((1/4 : ℚ)) : ℝ) = 1/4 by norm_num,
      show (1/4 : ℝ) = (1/2)^2 by norm_num,
      Real.sqrt_sq (by norm_num : (0:ℝ) ≤ 1/2)]
  simp only [standardizeCol, List.map_cons, List.map_nil, hmean, hvar]
  rw [if_neg (by norm_num : ¬ (1/4 : ℚ) = 0), hsq]
  push_cast
  norm_num

/-- `np.array([[1, -1]]).T` is `[[1], [-1]]`. -/
theorem transposeRows_single : transposeRows [[1, -1]] = [[1], [-1]] := by
  simp [transposeRows, List.range_succ]

/-- C1: on the batch `{"k": "a"}, {"k": "b"}` the code produces a single
one-hot column named `k=a` — `categorical_values` retains only the first
observed value because the type scan breaks at the first non-null value —
and whole-matrix standardization turns its `[1, 0]` into `[1, -1]`, so the
record not matching the first value does not get a zero block. -/
theorem one_hot_single_column_eval :
    encodeAttributes [convC1a, convC1b] = .ok ([[1], [-1]], ["k=a"]) := by
  have hstep : encodeAttributes [convC1a, convC1b] =
      .ok (transposeRows (List.map standardizeCol [[1, 0]]), ["k=a"]) := rfl
  rw [hstep, List.map_cons, List.map_nil, standardizeCol_one_zero,
    transposeRows_single]

/-- C3: on the batch `{"b": true}, {"b": false}` the boolean column `[1, 0]`
is also standardized (the scaler runs on the whole matrix), so the returned
entries are `[1, -1]`, not the claimed raw `1.0`/`0.0` truthiness values. -/
theorem boolean_column_standardized_eval :
    encodeAttributes [convC3a, convC3b] = .ok ([[1], [-1]], ["b"]) := by
  have hstep : encodeAttributes [convC3a, convC3b] =
      .ok (transposeRows (List.map standardizeCol [[1, 0]]), ["b"]) := rfl
  rw [hstep, List.map_cons, List.map_nil, standardizeCol_one_zero,
    transposeRows_single]

end ClusteringService

namespace ClusteringService

/-! ## C5: symmetry and diagonal of the cosine similarity matrix -/

theorem dotR_nil_left (b : List ℝ) : dotR [] b = 0 := by cases b <;> rfl

theorem sklearnNormalizeRow_nil : sklearnNormalizeRow [] = [] := rfl

theorem dotR_map_div (a b : List ℝ) (c d : ℝ) :
    dotR (a.map (fun x => x / c)) (b.map (fun x => x / d)) = dotR a b / (c * d) := by
  induction a generalizing b with
  | nil => cases b <;> simp [dotR]
  | cons x xs ih =>
    cases b with
    | nil => simp [dotR]
    | cons y ys =>
      simp only [List.map_cons, dotR, ih]
      rw [div_mul_div_comm, add_div]

theorem getD_map_lt {α β : Type _} (f : α → β) (l : List α) (i : ℕ)
    (hi : i < l.length) (d : β) (dl : α) :
    (l.map f).getD i d = f (l.getD i dl) := by
  rw [List.getD_eq_getElem _ _ (by simpa using hi), List.getElem_map,
    List.getD_eq_getElem _ _ hi]

/-- The sklearn-normalized row list reads `sklearnNormalizeRow` of the
corresponding input row at every index (the empty row off the end). -/
theorem normalized_getD (X : List (List ℝ)) (k : ℕ) :
    (X.map sklearnNormalizeRow).getD k [] = sklearnNormalizeRow (X.getD k []) := by
  by_cases hk : k < X.length
  · exact getD_map_lt _ _ _ hk _ []
  · rw [List.getD_eq_default _ _ (by simpa using not_lt.mp hk),
      List.getD_eq_default _ _ (not_lt.mp hk), sklearnNormalizeRow_nil]

/-- Any entry of `cosineSimilarity X` is the dot product of the two
corresponding sklearn-normalized rows (out-of-range indices read the empty
row, making the entry 0). -/
theorem cosineSimilarity_entry (X : List (List ℝ)) (i j : ℕ) :
    entry (cosineSimilarity X) i j =
      dotR (sklearnNormalizeRow (X.getD i []))
        (sklearnNormalizeRow (X.getD j [])) := by
  have hM : ∀ k, k < X.length →
      (cosineSimilarity X).getD k [] =
        (X.map sklearnNormalizeRow).map
          (fun rj => dotR (sklearnNormalizeRow (X.getD k [])) rj) := by
    intro k hk
    unfold cosineSimilarity
    rw [getD_map_lt _ _ _ (by simpa using hk) _ [], normalized_getD]
  unfold entry
  by_cases hi : i < X.length
  · rw [hM i hi]
    by_cases hj : j < X.length
    · rw [getD_map_lt _ _ _ (by simpa using hj) _ [], normalized_getD]
    · rw [List.getD_eq_default _ _ (by simpa using not_lt.mp hj),
        List.getD_eq_default _ _ (not_lt.mp hj), sklearnNormalizeRow_nil,
        dotR_nil_right]
  · have hcs : (cosineSimilarity X).getD i [] = [] := by
      apply List.getD_eq_default
      unfold cosineSimilarity
      simpa using not_lt.mp hi
    rw [hcs, List.getD_eq_default _ _ (not_lt.mp hi), sklearnNormalizeRow_nil,
      dotR_nil_left]
    simp

theorem cosineSimilarity_symm_entry (X : List (List ℝ)) (i j : ℕ) :
    entry (cosineSimilarity X) i j = entry (cosineSimilarity X) j i := by
  rw [cosineSimilarity_entry, cosineSimilarity_entry, dotR_comm]

theorem cosineSimilarity_diag_one (X : List (List ℝ)) (i : ℕ)
    (hv : dotR (X.getD i []) (X.getD i []) ≠ 0) :
    entry (cosineSimilarity X) i i = 1 := by
  rw [cosineSimilarity_entry]
  have hnorm : normR (X.getD i []) ≠ 0 := fun h => hv ((normR_eq_zero_iff _).mp h)
  rw [sklearnNormalizeRow, if_neg hnorm, dotR_map_div, normR,
    Real.mul_self_sqrt (dotR_self_nonneg _)]
  exact div_self hv

end ClusteringService

namespace ClusteringService

/-- Weight triple putting everything on the attribute block. -/
noncomputable def wAttrOnly : Weights := ⟨0, 1, 0⟩

/-- C5 (amended): for every input to the vector-composition stage, the
similarity matrix `perform_clustering` returns is symmetric, and every
diagonal entry whose record has a nonzero composite weighted vector equals
1 within 1e-6 (exactly 1 in real arithmetic).  The claim's unconditional
diagonal statement fails when a composite vector is all-zero — e.g. with
the all-zero weight triple — see `similarity_diag_zero_counterexample`. -/
theorem similarity_symmetric_and_unit_diag (S A O : List (List ℝ)) (w : Weights) :
    (∀ i j, entry (simOf S A O w) i j = entry (simOf S A O w) j i) ∧
    (∀ i, dotR ((createWeightedVectors S A O w).getD i [])
            ((createWeightedVectors S A O w).getD i []) ≠ 0 →
        |entry (simOf S A O w) i i - 1| ≤ 1 / 1000000) := by
  unfold simOf
  constructor
  · intro i j
    exact cosineSimilarity_symm_entry _ i j
  · intro i hv
    rw [cosineSimilarity_diag_one _ i hv]
    norm_num

/-- `np.linalg.norm([2.0]) = 2`. -/
theorem normR_two : normR [(2 : ℝ)] = 2 := by
  unfold normR
  rw [show dotR [(2:ℝ)] [2] = 4 by norm_num [dotR],
    show (4:ℝ) = 2^2 by norm_num, Real.sqrt_sq (by norm_num : (0:ℝ) ≤ 2)]

/-- Witness for `similarity_symmetric_and_unit_diag`: a single record with
attribute vector `[2]` and attribute-only weights has a nonzero composite
vector, and its diagonal similarity entry is within 1e-6 of 1. -/
theorem similarity_symmetric_and_unit_diag_witness :
    |entry (simOf [[0]] [[2]] [[0]] wAttrOnly) 0 0 - 1| ≤ 1 / 1000000 := by
  have hv : (createWeightedVectors [[0]] [[2]] [[0]] wAttrOnly).getD 0 [] =
      [0, 2 / (2 + eps), 0] := by
    simp [createWeightedVectors, rowNormEps, wAttrOnly, normR_two]
  refine (similarity_symmetric_and_unit_diag [[0]] [[2]] [[0]] wAttrOnly).2 0 ?_
  rw [hv]
  have hc : (2 : ℝ) / (2 + eps) ≠ 0 := by norm_num [eps]
  simp [dotR, hc]

end ClusteringService

namespace ClusteringService

/-! ## Concrete evaluation of the full pipeline on `convs0` -/

theorem bind_ok {ε α β : Type _} (a : α) (f : α → Except ε β) :
    (Except.ok a >>= f) = f a := rfl

theorem cwv_zero :
    createWeightedVectors [[0], [0]] [[0], [0]] [[0], [0]] wZero =
      [[0, 0, 0], [0, 0, 0]] := by
  simp [createWeightedVectors, rowNormEps, wZero]

theorem cosSim_zero :
    cosineSimilarity [[(0:ℝ), 0, 0], [0, 0, 0]] = [[0, 0], [0, 0]] := by
  have h : sklearnNormalizeRow [(0:ℝ), 0, 0] = [0, 0, 0] := by
    simp [sklearnNormalizeRow]
  simp [cosineSimilarity, h, dotR]

theorem simOf_zero :
    simOf [[0], [0]] [[0], [0]] [[0], [0]] wZero = [[0, 0], [0, 0]] := by
  rw [simOf, cwv_zero, cosSim_zero]

theorem pipeline_eval :
    performClusteringAux cut0 convs0 wZero 5 3 =
      .ok ⟨[("1", ["a", "b"])], [("1", [("1", ["a", "b"])])],
           [[0, 0], [0, 0]], [(2, 1), (2, 1)]⟩ := by
  have hS : convs0.map (fun c => c.semantic_embedding.map (fun q => (q : ℝ))) =
      [[0], [0]] := by simp [convs0]
  have hO : convs0.map (fun c => [((encodeOutcome c.outcome : ℚ) : ℝ)]) =
      [[0], [0]] := by
    simp [convs0, show encodeOutcome "unsatisfied" = 0 from rfl]
  have hA : encodeAttributes convs0 = .ok ([[0], [0]], []) := rfl
  have hids : convs0.map (fun c => c.id) = ["a", "b"] := rfl
  have hu : uniqueSorted [1, 1] = [1] := by decide
  have hidx : idxWhere [1, 1] 1 = [0, 1] := by decide
  simp only [performClusteringAux, hA, hS, hO, hids, bind_ok,
    show convs0.length = 2 from rfl]
  rw [simOf_zero]
  simp [cut0, hu, hidx, entry, selectIdx, buildGroups, buildHigh, buildSubs,
    buildSubsEntry, show toString (1:ℕ) = "1" from rfl]
  rfl

end ClusteringService

namespace ClusteringService

/-! ## Permutation properties of the taxonomy assembly -/

theorem insertSorted_perm (le : α → α → Bool) (x : α) (l : List α) :
    (insertSorted le x l).Perm (x :: l) := by
  induction l with
  | nil => simp [insertSorted]
  | cons y ys ih =>
    unfold insertSorted
    by_cases h : le x y = true
    · rw [if_pos h]
    · rw [if_neg h]
      exact (ih.cons y).trans (List.Perm.swap x y ys)

theorem sortBy_perm (le : α → α → Bool) (l : List α) : (sortBy le l).Perm l := by
  induction l with
  | nil => simp [sortBy]
  | cons x xs ih =>
    exact (insertSorted_perm le x (sortBy le xs)).trans (ih.cons x)

theorem mem_uniqueSorted (l : List ℕ) (a : ℕ) : a ∈ uniqueSorted l ↔ a ∈ l := by
  unfold uniqueSorted
  rw [(sortBy_perm natLe l.dedup).mem_iff, List.mem_dedup]

theorem nodup_uniqueSorted (l : List ℕ) : (uniqueSorted l).Nodup :=
  ((sortBy_perm natLe l.dedup).nodup_iff).mpr (List.nodup_dedup l)

theorem getD_mem_of_lt {α : Type _} (l : List α) (d : α) (i : ℕ)
    (hi : i < l.length) : l.getD i d ∈ l := by
  rw [List.getD_eq_getElem l d hi]
  exact List.getElem_mem hi

theorem count_idxWhere (l : List ℕ) (c i : ℕ) :
    (idxWhere l c).count i = if i < l.length ∧ l.getD i 0 = c then 1 else 0 := by
  unfold idxWhere
  by_cases hmem : i ∈ (List.range l.length).filter (fun k => decide (l.getD k 0 = c))
  · have hnodup := (List.nodup_range l.length).filter
      (fun k => decide (l.getD k 0 = c))
    rw [List.count_eq_one_of_mem hnodup hmem]
    rw [List.mem_filter, List.mem_range] at hmem
    rw [if_pos ⟨hmem.1, by simpa using hmem.2⟩]
  · rw [List.count_eq_zero.mpr hmem, if_neg]
    intro hcon
    exact hmem (by
      rw [List.mem_filter, List.mem_range]
      exact ⟨hcon.1, by simpa using hcon.2⟩)

theorem sum_ite_count (v : ℕ) (L : List ℕ) :
    (L.map (fun c => if c = v then 1 else 0)).sum = L.count v := by
  induction L with
  | nil => simp
  | cons c cs ih =>
    simp only [List.map_cons, List.sum_cons, ih, List.count_cons]
    by_cases h : c = v
    · simp [h, add_comm]
    · simp [h, Ne.symm h]

theorem count_flatten_idxWhere (l : List ℕ) (i : ℕ) :
    (((uniqueSorted l).map (idxWhere l)).flatten).count i =
      if i < l.length then 1 else 0 := by
  rw [List.count_flatten, List.map_map]
  have hcg : ((uniqueSorted l).map (List.count i ∘ idxWhere l)) =
      ((uniqueSorted l).map (fun c => if i < l.length ∧ l.getD i 0 = c then 1 else 0)) :=
    List.map_congr_left (fun c _ => count_idxWhere l c i)
  rw [hcg]
  by_cases hi : i < l.length
  · have h1 : ((uniqueSorted l).map
        (fun c => if i < l.length ∧ l.getD i 0 = c then 1 else 0)) =
        ((uniqueSorted l).map (fun c => if c = l.getD i 0 then 1 else 0)) :=
      List.map_congr_left (fun c _ => by
        simp only [hi, true_and]
        by_cases h : l.getD i 0 = c
        · rw [if_pos h, if_pos h.symm]
        · rw [if_neg h, if_neg (fun hc => h hc.symm)])
    rw [h1, sum_ite_count,
      List.count_eq_one_of_mem (nodup_uniqueSorted l)
        ((mem_uniqueSorted l _).mpr (getD_mem_of_lt l 0 i hi)),
      if_pos hi]
  · simp [hi]

theorem flatten_idxWhere_perm (l : List ℕ) :
    (((uniqueSorted l).map (idxWhere l)).flatten).Perm (List.range l.length) := by
  rw [List.perm_iff_count]
  intro a
  rw [count_flatten_idxWhere]
  by_cases ha : a < l.length
  · rw [if_pos ha,
      List.count_eq_one_of_mem (List.nodup_range _) (List.mem_range.mpr ha)]
  · rw [if_neg ha, Eq.comm, List.count_eq_zero, List.mem_range]
    exact ha

theorem range_map_getD {α : Type _} (l : List α) (d : α) :
    (List.range l.length).map (fun i => l.getD i d) = l := by
  induction l with
  | nil => simp
  | cons x xs ih =>
    rw [List.length_cons, List.range_succ_eq_map, List.map_cons,
      List.getD_cons_zero, List.map_map]
    have hfun : ((fun i => (x :: xs).getD i d) ∘ Nat.succ) =
        (fun i => xs.getD i d) := funext fun i => rfl
    rw [hfun, ih]

theorem flatten_map_perm {γ α : Type _} (L : List γ) (f g : γ → List α)
    (h : ∀ x ∈ L, (f x).Perm (g x)) :
    ((L.map f).flatten).Perm ((L.map g).flatten) := by
  induction L with
  | nil => simp
  | cons x xs ih =>
    simp only [List.map_cons, List.flatten_cons]
    exact (h x (by simp)).append (ih (fun y hy => h y (by simp [hy])))

end ClusteringService

namespace ClusteringService

theorem bind_error {ε α β : Type _} (e : ε) (f : α → Except ε β) :
    ((Except.error e : Except ε α) >>= f) = .error e := rfl

theorem exceptMap_ok {ε α β : Type _} (f : α → β) (a : α) :
    (Except.map f (Except.ok a) : Except ε β) = .ok (f a) := rfl

theorem exceptMap_error {ε α β : Type _} (f : α → β) (e : ε) :
    (Except.map f (Except.error e) : Except ε β) = .error e := rfl

theorem mapE_ok_length {α β : Type _} (f : α → Except PipeError β) (l : List α)
    (r : List β) (h : mapE f l = .ok r) : r.length = l.length := by
  induction l generalizing r with
  | nil =>
    simp only [mapE, Except.ok.injEq] at h
    subst h; rfl
  | cons x xs ih =>
    simp only [mapE] at h
    cases hfx : f x with
    | error e => rw [hfx, bind_error] at h; exact Except.noConfusion h
    | ok y =>
      rw [hfx, bind_ok] at h
      cases hrec : mapE f xs with
      | error e => rw [hrec, bind_error] at h; exact Except.noConfusion h
      | ok ys =>
        rw [hrec, bind_ok] at h
        simp only [Except.ok.injEq] at h
        subst h
        simp [ih ys hrec]

theorem mapE_ok_mem {α β : Type _} (f : α → Except PipeError β) (l : List α)
    (r : List β) (h : mapE f l = .ok r) : ∀ y ∈ r, ∃ x ∈ l, f x = .ok y := by
  induction l generalizing r with
  | nil =>
    simp only [mapE, Except.ok.injEq] at h
    subst h; simp
  | cons x xs ih =>
    simp only [mapE] at h
    cases hfx : f x with
    | error e => rw [hfx, bind_error] at h; exact Except.noConfusion h
    | ok y =>
      rw [hfx, bind_ok] at h
      cases hrec : mapE f xs with
      | error e => rw [hrec, bind_error] at h; exact Except.noConfusion h
      | ok ys =>
        rw [hrec, bind_ok] at h
        simp only [Except.ok.injEq] at h
        subst h
        intro z hz
        rcases List.mem_cons.mp hz with rfl | hz
        · exact ⟨x, by simp, hfx⟩
        · obtain ⟨x1, hx1, hfx1⟩ := ih ys hrec z hz
          exact ⟨x1, by simp [hx1], hfx1⟩

theorem colsForKey_length (convs : List Conv) (key : String)
    (p : List (List ℚ) × List String) (h : colsForKey convs key = .ok p) :
    ∀ col ∈ p.1, col.length = convs.length := by
  unfold colsForKey at h
  cases hf : firstNonNull convs key with
  | none => rw [hf] at h; exact Except.noConfusion h
  | some v =>
    rw [hf] at h
    cases v with
    | bool b =>
      simp only [Except.ok.injEq] at h
      subst h
      intro col hcol
      simp only [List.mem_singleton] at hcol
      subst hcol
      exact List.length_map _ _
    | num q =>
      cases hm : mapE (fun c => numEntry (lookupAttr c key)) convs with
      | error e => rw [hm, bind_error] at h; exact Except.noConfusion h
      | ok col =>
        rw [hm, bind_ok] at h
        simp only [Except.ok.injEq] at h
        subst h
        intro c hc
        simp only [List.mem_singleton] at hc
        subst hc
        exact mapE_ok_length _ _ _ hm
    | str v =>
      simp only [Except.ok.injEq] at h
      subst h
      intro col hcol
      rw [List.mem_map] at hcol
      obtain ⟨u, -, rfl⟩ := hcol
      exact List.length_map _ _

theorem buildFeatureColumns_length (convs : List Conv) (keys : List String)
    (p : List (List ℚ) × List String)
    (h : buildFeatureColumns convs keys = .ok p) :
    ∀ col ∈ p.1, col.length = convs.length := by
  unfold buildFeatureColumns at h
  cases hm : mapE (colsForKey convs) keys with
  | error e => rw [hm, bind_error] at h; exact Except.noConfusion h
  | ok parts =>
    rw [hm, bind_ok] at h
    simp only [Except.ok.injEq] at h
    subst h
    intro col hcol
    simp only [List.mem_flatten, List.mem_map] at hcol
    obtain ⟨cl, ⟨part, hpart, rfl⟩, hcol⟩ := hcol
    obtain ⟨key, -, hkey⟩ := mapE_ok_mem _ _ _ hm part hpart
    exact colsForKey_length convs key part hkey col hcol

theorem standardizeCol_length (c : List ℚ) :
    (standardizeCol c).length = c.length := List.length_map _ _

theorem transposeRows_length (cols : List (List ℝ)) :
    (transposeRows cols).length = (cols.headD []).length := by
  unfold transposeRows
  rw [List.length_map, List.length_range]

/-- Whenever `encode_attributes` succeeds, the returned matrix has one row
per conversation. -/
theorem encodeAttributes_ok_length (convs : List Conv)
    (p : List (List ℝ) × List String) (h : encodeAttributes convs = .ok p) :
    p.1.length = convs.length := by
  unfold encodeAttributes at h
  by_cases hempty : convs.isEmpty = true
  · rw [if_pos hempty] at h
    simp only [Except.ok.injEq] at h
    subst h
    simp [List.isEmpty_iff.mp hempty]
  · rw [if_neg hempty] at h
    by_cases hkeys : (sortedKeys convs).isEmpty = true
    · rw [if_pos hkeys] at h
      simp only [Except.ok.injEq] at h
      subst h
      exact List.length_replicate _ _
    · rw [if_neg hkeys] at h
      cases hb : buildFeatureColumns convs (sortedKeys convs) with
      | error e => rw [hb, bind_error] at h; exact Except.noConfusion h
      | ok q =>
        rw [hb, bind_ok] at h
        by_cases hce : q.1.isEmpty = true
        · rw [if_pos hce] at h
          simp only [pure, Except.pure, Except.ok.injEq] at h
          subst h
          exact List.length_replicate _ _
        · rw [if_neg hce] at h
          simp only [pure, Except.pure, Except.ok.injEq] at h
          subst h
          rw [transposeRows_length]
          obtain ⟨c0, cs, hq⟩ : ∃ c0 cs, q.1 = c0 :: cs := by
            cases hq1 : q.1 with
            | nil => rw [hq1] at hce; simp at hce
            | cons c0 cs => exact ⟨c0, cs, rfl⟩
          rw [hq, List.map_cons, List.headD_cons, standardizeCol_length]
          exact buildFeatureColumns_length convs (sortedKeys convs) q hb c0
            (by rw [hq]; simp)

end ClusteringService

namespace ClusteringService

/-! ## Per-group membership permutations -/

theorem buildSubsEntry_snd_small (cut : List (List ℝ) → ℕ → List ℕ)
    (ids : List String) (dist : List (List ℝ)) (numSub : ℕ) (g : ℕ × List ℕ)
    (h : g.2.length < 2) :
    (buildSubsEntry cut ids dist numSub g).2 =
      [("0", g.2.map (fun i => ids.getD i ""))] := by
  unfold buildSubsEntry
  rw [if_pos h]

theorem buildSubsEntry_snd_large (cut : List (List ℝ) → ℕ → List ℕ)
    (ids : List String) (dist : List (List ℝ)) (numSub : ℕ) (g : ℕ × List ℕ)
    (h : ¬ g.2.length < 2) :
    (buildSubsEntry cut ids dist numSub g).2 =
      (uniqueSorted (cut (g.2.map (fun i => g.2.map (fun j => entry dist i j)))
          (min numSub (g.2.length - 1)))).map (fun s =>
        (toString s,
         (selectIdx g.2
           (cut (g.2.map (fun i => g.2.map (fun j => entry dist i j)))
             (min numSub (g.2.length - 1))) s).map (fun i => ids.getD i ""))) := by
  unfold buildSubsEntry
  rw [if_neg h]

/-- Cutting a group into subgroups by any label assignment of the right
length and reading the ids back is a permutation of the group's ids. -/
theorem subEntry_members_perm (ids : List String) (idxs : List ℕ) (sl : List ℕ)
    (hlen : sl.length = idxs.length) :
    (((uniqueSorted sl).map (fun s =>
        (selectIdx idxs sl s).map (fun i => ids.getD i ""))).flatten).Perm
      (idxs.map (fun i => ids.getD i "")) := by
  have h1 : ((uniqueSorted sl).map (fun s =>
      (selectIdx idxs sl s).map (fun i => ids.getD i ""))) =
      ((uniqueSorted sl).map (fun s =>
        (idxWhere sl s).map (fun j => ids.getD (idxs.getD j 0) ""))) := by
    apply List.map_congr_left
    intro s _
    rw [selectIdx, List.map_map]
    rfl
  rw [h1]
  have h2 : ((uniqueSorted sl).map (fun s =>
      (idxWhere sl s).map (fun j => ids.getD (idxs.getD j 0) ""))).flatten =
      (((uniqueSorted sl).map (idxWhere sl)).flatten).map
        (fun j => ids.getD (idxs.getD j 0) "") := by
    conv_rhs => rw [List.map_flatten, List.map_map]
    rfl
  rw [h2]
  refine ((flatten_idxWhere_perm sl).map _).trans ?_
  rw [hlen]
  have h3 : (List.range idxs.length).map (fun j => ids.getD (idxs.getD j 0) "") =
      ((List.range idxs.length).map (fun j => idxs.getD j 0)).map
        (fun i => ids.getD i "") := by
    rw [List.map_map]
    rfl
  rw [h3, range_map_getD idxs 0]

/-- The member lists of one group's subcluster map are a permutation of the
group's ids. -/
theorem buildSubsEntry_members_perm (cut : List (List ℝ) → ℕ → List ℕ)
    (hcut : ∀ D k, (cut D k).length = D.length)
    (ids : List String) (dist : List (List ℝ)) (numSub : ℕ) (g : ℕ × List ℕ) :
    ((((buildSubsEntry cut ids dist numSub g).2).map (fun sl => sl.2)).flatten).Perm
      (g.2.map (fun i => ids.getD i "")) := by
  by_cases hlen : g.2.length < 2
  · rw [buildSubsEntry_snd_small cut ids dist numSub g hlen]
    simp
  · rw [buildSubsEntry_snd_large cut ids dist numSub g hlen]
    have hsl : (cut (g.2.map (fun i => g.2.map (fun j => entry dist i j)))
        (min numSub (g.2.length - 1))).length = g.2.length := by
      rw [hcut, List.length_map]
    have hmm : ((uniqueSorted (cut (g.2.map (fun i => g.2.map (fun j => entry dist i j)))
          (min numSub (g.2.length - 1)))).map (fun s =>
        (toString s,
         (selectIdx g.2
           (cut (g.2.map (fun i => g.2.map (fun j => entry dist i j)))
             (min numSub (g.2.length - 1))) s).map (fun i => ids.getD i "")))).map
        (fun sl => sl.2) =
        (uniqueSorted (cut (g.2.map (fun i => g.2.map (fun j => entry dist i j)))
          (min numSub (g.2.length - 1)))).map (fun s =>
          (selectIdx g.2
            (cut (g.2.map (fun i => g.2.map (fun j => entry dist i j)))
              (min numSub (g.2.length - 1))) s).map (fun i => ids.getD i "")) := by
      rw [List.map_map]
      rfl
    rw [hmm]
    exact subEntry_members_perm ids g.2 _ hsl

end ClusteringService

namespace ClusteringService

/-! ## Shape of a successful `perform_clustering` run -/

theorem createWeightedVectors_length (S A O : List (List ℝ)) (w : Weights)
    (hA : A.length = S.length) (hO : O.length = S.length) :
    (createWeightedVectors S A O w).length = S.length := by
  unfold createWeightedVectors
  rw [List.length_map, List.length_zip, List.length_zip, hO]
  by_cases h : 0 < (A.headD []).length
  · rw [if_pos h, List.length_map, hA]
    simp
  · rw [if_neg h, List.length_replicate]
    simp

theorem simOf_length (S A O : List (List ℝ)) (w : Weights)
    (hA : A.length = S.length) (hO : O.length = S.length) :
    (simOf S A O w).length = S.length := by
  unfold simOf cosineSimilarity
  rw [List.length_map, List.length_map, createWeightedVectors_length S A O w hA hO]

/-- Destructuring a successful `perform_clustering` run into the attribute
encoding it used, the top-level labels, and the two maps it built. -/
theorem performClustering_ok_elim (cut : List (List ℝ) → ℕ → List ℕ)
    (convs : List Conv) (w : Weights) (kh ks : ℕ)
    (high : List (String × List String))
    (subs : List (String × List (String × List String))) (sim : List (List ℝ))
    (hok : performClustering cut convs w kh ks = .ok (high, subs, sim)) :
    ∃ p : List (List ℝ) × List String,
      encodeAttributes convs = .ok p ∧
      p.1.length = convs.length ∧
      ∃ labels : List ℕ,
        labels = cut ((simOf
            (convs.map (fun c => c.semantic_embedding.map (fun q => (q : ℝ)))) p.1
            (convs.map (fun c => [((encodeOutcome c.outcome : ℚ) : ℝ)])) w).map
            (fun row => row.map (fun x => 1 - x))) (min kh (convs.length - 1)) ∧
        high = buildHigh (convs.map (fun c => c.id)) (buildGroups labels) ∧
        subs = buildSubs cut (convs.map (fun c => c.id))
          ((simOf
            (convs.map (fun c => c.semantic_embedding.map (fun q => (q : ℝ)))) p.1
            (convs.map (fun c => [((encodeOutcome c.outcome : ℚ) : ℝ)])) w).map
            (fun row => row.map (fun x => 1 - x))) ks (buildGroups labels) := by
  unfold performClustering performClusteringAux at hok
  by_cases hlt : convs.length < 2
  · rw [if_pos hlt, exceptMap_error] at hok
    exact Except.noConfusion hok
  · rw [if_neg hlt] at hok
    cases hA : encodeAttributes convs with
    | error e =>
      rw [hA, bind_error, exceptMap_error] at hok
      exact Except.noConfusion hok
    | ok p =>
      rw [hA, bind_ok] at hok
      simp only [pure, Except.pure, exceptMap_ok, Except.ok.injEq,
        Prod.mk.injEq] at hok
      obtain ⟨hh, hs, -⟩ := hok
      exact ⟨p, rfl, encodeAttributes_ok_length convs p hA, _, rfl, hh.symm, hs.symm⟩

/-! ## The taxonomy is a partition -/

theorem allMembers_buildSubs_perm (cut : List (List ℝ) → ℕ → List ℕ)
    (hcut : ∀ D k, (cut D k).length = D.length)
    (ids : List String) (dist : List (List ℝ)) (numSub : ℕ)
    (labels : List ℕ) (hlen : labels.length = ids.length) :
    (allMembers (buildSubs cut ids dist numSub (buildGroups labels))).Perm ids := by
  unfold allMembers memberLists buildSubs
  rw [List.map_map, List.flatten_flatten, List.map_map]
  refine (flatten_map_perm _ _ (fun g => g.2.map (fun i => ids.getD i "")) ?_).trans ?_
  · intro g _
    exact buildSubsEntry_members_perm cut hcut ids dist numSub g
  · have h4 : ((buildGroups labels).map
        (fun g => g.2.map (fun i => ids.getD i ""))).flatten =
        (((buildGroups labels).map (fun g => g.2)).flatten).map
          (fun i => ids.getD i "") := by
      conv_rhs => rw [List.map_flatten, List.map_map]
      rfl
    rw [h4]
    have h5 : (buildGroups labels).map (fun g => g.2) =
        (uniqueSorted labels).map (idxWhere labels) := by
      unfold buildGroups
      rw [List.map_map]
      rfl
    rw [h5]
    refine ((flatten_idxWhere_perm labels).map _).trans ?_
    rw [hlen, range_map_getD]

theorem pairsOf_length_eq (subs : List (String × List (String × List String)))
    (x : String) :
    (pairsOf subs x).length =
      (memberLists subs).countP (fun l => decide (x ∈ l)) := by
  unfold pairsOf memberLists
  rw [List.length_flatten, List.countP_flatten, List.map_map, List.map_map]
  congr 1
  apply List.map_congr_left
  intro cs _
  simp only [Function.comp]
  rw [List.length_map, ← List.countP_eq_length_filter, List.countP_map]
  rfl

theorem countP_eq_one_of_count_flatten (x : String) (L : List (List String))
    (h : L.flatten.count x = 1) : L.countP (fun l => decide (x ∈ l)) = 1 := by
  induction L with
  | nil => simp at h
  | cons l t ih =>
    rw [List.flatten_cons, List.count_append] at h
    rw [List.countP_cons]
    by_cases hl : x ∈ l
    · have h1 : 0 < l.count x := List.count_pos_iff.mpr hl
      have h2 : t.flatten.count x = 0 := by omega
      have ht : t.countP (fun l2 => decide (x ∈ l2)) = 0 := by
        rw [List.countP_eq_zero]
        intro l2 hl2
        simp only [decide_eq_true_eq]
        intro hx
        have hp : 0 < l2.count x := List.count_pos_iff.mpr hx
        have hle : l2.count x ≤ t.flatten.count x := by
          rw [List.count_flatten]
          exact List.single_le_sum (by simp) _ (List.mem_map_of_mem _ hl2)
        omega
      rw [ht, if_pos (by simpa using hl)]
    · have h0 : l.count x = 0 := List.count_eq_zero.mpr hl
      rw [h0, zero_add] at h
      rw [if_neg (by simpa using hl), add_zero]
      exact ih h

/-- C2: whenever `perform_clustering` returns and the input ids are unique,
the taxonomy is a partition of the input: the concatenation of all
subcluster member lists is a permutation of the input id list, and every
input id appears in exactly one (top-cluster, subcluster) pair. -/
theorem taxonomy_partition (cut : List (List ℝ) → ℕ → List ℕ)
    (hcut : ∀ D k, (cut D k).length = D.length)
    (convs : List Conv) (w : Weights) (kh ks : ℕ)
    (high : List (String × List String))
    (subs : List (String × List (String × List String))) (sim : List (List ℝ))
    (hok : performClustering cut convs w kh ks = .ok (high, subs, sim))
    (hnodup : (convs.map (fun c => c.id)).Nodup) :
    (allMembers subs).Perm (convs.map (fun c => c.id)) ∧
    ∀ x ∈ convs.map (fun c => c.id), (pairsOf subs x).length = 1 := by
  obtain ⟨p, hA, hAlen, labels, hlab, hhigh, hsubs⟩ :=
    performClustering_ok_elim cut convs w kh ks high subs sim hok
  subst hsubs
  have hlablen : labels.length = (convs.map (fun c => c.id)).length := by
    rw [hlab, hcut, List.length_map,
      simOf_length _ _ _ _ (by rw [hAlen, List.length_map])
        (by rw [List.length_map, List.length_map]),
      List.length_map, List.length_map]
  refine ⟨allMembers_buildSubs_perm cut hcut _ _ ks labels hlablen, ?_⟩
  intro x hx
  rw [pairsOf_length_eq]
  apply countP_eq_one_of_count_flatten
  show (allMembers _).count x = 1
  rw [(allMembers_buildSubs_perm cut hcut _ _ ks labels hlablen).count_eq]
  exact List.count_eq_one_of_mem hnodup hx

/-- Witness for `taxonomy_partition` at the concrete batch `convs0` with
the trivial one-label cut. -/
theorem taxonomy_partition_witness :
    (allMembers [("1", [("1", ["a", "b"])])]).Perm (convs0.map (fun c => c.id)) ∧
    ∀ x ∈ convs0.map (fun c => c.id),
      (pairsOf [("1", [("1", ["a", "b"])])] x).length = 1 :=
  taxonomy_partition cut0 (fun D k => List.length_replicate _ _) convs0 wZero 5 3
    [("1", ["a", "b"])] [("1", [("1", ["a", "b"])])] [[0, 0], [0, 0]]
    (by unfold performClustering; rw [pipeline_eval, exceptMap_ok])
    (by decide)

/-- C10: whenever `perform_clustering` returns, the two maps are mutually
consistent: same keys in the same order, and, pairing corresponding
entries, each top-level cluster's subcluster member lists concatenate to a
permutation of that cluster's member list — no id crosses groups. -/
theorem taxonomy_maps_consistent (cut : List (List ℝ) → ℕ → List ℕ)
    (hcut : ∀ D k, (cut D k).length = D.length)
    (convs : List Conv) (w : Weights) (kh ks : ℕ)
    (high : List (String × List String))
    (subs : List (String × List (String × List String))) (sim : List (List ℝ))
    (hok : performClustering cut convs w kh ks = .ok (high, subs, sim)) :
    subs.map Prod.fst = high.map Prod.fst ∧
    ∀ pr ∈ high.zip subs, pr.1.1 = pr.2.1 ∧
      ((pr.2.2.map (fun sl => sl.2)).flatten).Perm pr.1.2 := by
  obtain ⟨p, hA, hAlen, labels, hlab, hhigh, hsubs⟩ :=
    performClustering_ok_elim cut convs w kh ks high subs sim hok
  subst hhigh
  subst hsubs
  constructor
  · unfold buildSubs buildHigh
    rw [List.map_map, List.map_map]
    rfl
  · intro pr hpr
    unfold buildSubs buildHigh at hpr
    rw [List.zip_map', List.mem_map] at hpr
    obtain ⟨g, -, rfl⟩ := hpr
    exact ⟨rfl, buildSubsEntry_members_perm cut hcut _ _ ks g⟩

/-- Witness for `taxonomy_maps_consistent` at the concrete batch `convs0`. -/
theorem taxonomy_maps_consistent_witness :
    ([("1", [("1", ["a", "b"])])].map Prod.fst
        : List String) = [("1", ["a", "b"])].map Prod.fst ∧
    ∀ pr ∈ ([("1", ["a", "b"])].zip [("1", [("1", ["a", "b"])])]),
      pr.1.1 = pr.2.1 ∧ ((pr.2.2.map (fun sl => sl.2)).flatten).Perm pr.1.2 :=
  taxonomy_maps_consistent cut0 (fun D k => List.length_replicate _ _) convs0
    wZero 5 3 [("1", ["a", "b"])] [("1", [("1", ["a", "b"])])] [[0, 0], [0, 0]]
    (by unfold performClustering; rw [pipeline_eval, exceptMap_ok])

/-- C5 counterexample: on the valid 2-record batch `convs0` with the
all-zero weight triple, `perform_clustering` returns a similarity matrix
whose diagonal entry is 0 — not within 1e-6 of 1.0. -/
theorem similarity_diag_zero_counterexample :
    performClustering cut0 convs0 wZero 5 3 =
      .ok ([("1", ["a", "b"])], [("1", [("1", ["a", "b"])])], [[0, 0], [0, 0]]) ∧
    ¬ (|entry [[(0 : ℝ), 0], [0, 0]] 0 0 - 1| ≤ 1 / 1000000) := by
  constructor
  · unfold performClustering
    rw [pipeline_eval, exceptMap_ok]
  · have h : entry [[(0 : ℝ), 0], [0, 0]] 0 0 = 0 := rfl
    rw [h, zero_sub, abs_neg, abs_one]
    norm_num

end ClusteringService

namespace ClusteringService

/-! ## C8: weight isolation -/

theorem dotR_append_zero (a b t u : List ℝ)
    (ht : ∀ x ∈ t, x = 0) (hu : ∀ x ∈ u, x = 0) :
    dotR (a ++ t) (b ++ u) = dotR a b := by
  induction a generalizing b with
  | nil =>
    cases b with
    | nil => simp only [List.nil_append]; rw [dotR_zero_left t ht u, dotR_nil_left]
    | cons y ys =>
      simp only [List.nil_append]
      rw [dotR_zero_left t ht (y :: ys ++ u), dotR_nil_left]
  | cons x xs ih =>
    cases b with
    | nil =>
      simp only [List.nil_append, List.cons_append]
      rw [dotR_zero_right (x :: (xs ++ t)) u hu, dotR_nil_right]
    | cons y ys =>
      simp only [List.cons_append, dotR]
      exact congrArg (fun z => x * y + z) (ih ys)

theorem map_one_mul (l : List ℝ) : l.map (fun x => 1 * x) = l := by
  simp

theorem normR_map_div (r : List ℝ) (c : ℝ) (hc : 0 < c) :
    normR (r.map (fun x => x / c)) = normR r / c := by
  unfold normR
  rw [dotR_map_div, show c * c = c ^ 2 by ring,
    Real.sqrt_div (dotR_self_nonneg r), Real.sqrt_sq hc.le]

theorem normR_rowNormEps (s : List ℝ) :
    normR (rowNormEps s) = normR s / (normR s + eps) := by
  have hc : (0 : ℝ) < normR s + eps :=
    add_pos_of_nonneg_of_pos (normR_nonneg s) eps_pos
  unfold rowNormEps
  exact normR_map_div s (normR s + eps) hc

/-- `a` equals `b` extended by zero entries. -/
def ZExt (a b : List ℝ) : Prop := ∃ t, a = b ++ t ∧ ∀ x ∈ t, x = 0

theorem ZExt_dotR {a b a2 b2 : List ℝ} (h1 : ZExt a b) (h2 : ZExt a2 b2) :
    dotR a a2 = dotR b b2 := by
  obtain ⟨t, rfl, ht⟩ := h1
  obtain ⟨u, rfl, hu⟩ := h2
  exact dotR_append_zero b b2 t u ht hu

theorem rowNormEps_all_zero (s : List ℝ) (h : ∀ x ∈ s, x = 0) :
    ∀ x ∈ rowNormEps s, x = 0 := by
  intro x hx
  rw [rowNormEps, List.mem_map] at hx
  obtain ⟨y, hy, rfl⟩ := hx
  rw [h y hy, zero_div]

/-- Normalizing a row made of an epsilon-normalized block padded with
zeros yields the sklearn-normalized original block padded with zeros: the
`1e-8` guard cancels exactly under the second normalization. -/
theorem normalize_padded_row (s junk : List ℝ) (hjunk : ∀ x ∈ junk, x = 0) :
    ZExt (sklearnNormalizeRow ((rowNormEps s).map (fun x => 1 * x) ++ junk))
      (sklearnNormalizeRow s) := by
  rw [map_one_mul]
  by_cases hz : dotR s s = 0
  · have hs0 : ∀ x ∈ s, x = 0 := eq_zero_of_dotR_self s hz
    have hns : normR s = 0 := (normR_eq_zero_iff s).mpr hz
    have hre0 : ∀ x ∈ rowNormEps s, x = 0 := rowNormEps_all_zero s hs0
    have hr0 : ∀ x ∈ rowNormEps s ++ junk, x = 0 := by
      intro x hx
      rcases List.mem_append.mp hx with h | h
      exacts [hre0 x h, hjunk x h]
    have hnr : normR (rowNormEps s ++ junk) = 0 :=
      (normR_eq_zero_iff _).mpr (dotR_zero_left _ hr0 _)
    refine ⟨junk.map (fun x => x / 1), ?_, ?_⟩
    · rw [sklearnNormalizeRow, if_pos hnr, List.map_append, sklearnNormalizeRow,
        if_pos hns]
      congr 1
      have hes : rowNormEps s = s := by
        rw [rowNormEps]
        conv_rhs => rw [← List.map_id s]
        exact List.map_congr_left (fun x hx => by rw [hs0 x hx, zero_div]; rfl)
      rw [hes]
    · intro x hx
      rw [List.mem_map] at hx
      obtain ⟨y, hy, rfl⟩ := hx
      rw [hjunk y hy, zero_div]
  · have hns : normR s ≠ 0 := fun h => hz ((normR_eq_zero_iff s).mp h)
    have hnspos : 0 < normR s := lt_of_le_of_ne (normR_nonneg s) (Ne.symm hns)
    have hce : (0 : ℝ) < normR s + eps :=
      add_pos_of_nonneg_of_pos (normR_nonneg s) eps_pos
    have hdr : dotR (rowNormEps s ++ junk) (rowNormEps s ++ junk) =
        dotR (rowNormEps s) (rowNormEps s) :=
      dotR_append_zero _ _ junk junk hjunk hjunk
    have hnr : normR (rowNormEps s ++ junk) = normR s / (normR s + eps) := by
      rw [normR, hdr, ← normR, normR_rowNormEps]
    have hnrne : normR (rowNormEps s ++ junk) ≠ 0 := by
      rw [hnr]
      exact div_ne_zero hns (ne_of_gt hce)
    refine ⟨junk.map (fun x => x / normR (rowNormEps s ++ junk)), ?_, ?_⟩
    · rw [sklearnNormalizeRow, List.map_append, sklearnNormalizeRow,
        if_neg hnrne, if_neg hns]
      congr 1
      rw [hnr, rowNormEps, List.map_map]
      apply List.map_congr_left
      intro x _
      show x / (normR s + eps) / (normR s / (normR s + eps)) = x / normR s
      rw [div_div_div_cancel_right₀]
      exact ne_of_gt hce
    · intro x hx
      rw [List.mem_map] at hx
      obtain ⟨y, hy, rfl⟩ := hx
      rw [hjunk y hy, zero_div]

end ClusteringService

namespace ClusteringService

theorem map_eq_of_forall₂ {α β γ : Type _} {R : α → β → Prop}
    {X : List α} {Y : List β} (h : List.Forall₂ R X Y) (F : α → γ) (G : β → γ)
    (hFG : ∀ a b, R a b → F a = G b) : X.map F = Y.map G := by
  induction h with
  | nil => rfl
  | cons hab _ ih => simp [hFG _ _ hab, ih]

/-- Componentwise: the sklearn-normalized composite rows (semantic weight 1,
others 0) are the sklearn-normalized semantic rows padded with zeros. -/
theorem forall₂_normalized_zip (S Z O : List (List ℝ))
    (hZ : Z.length = S.length) (hO : O.length = S.length) :
    List.Forall₂ ZExt
      (((S.zip (Z.zip O)).map (fun p =>
          (rowNormEps p.1).map (fun x => (1 : ℝ) * x) ++
          (p.2.1.map (fun x => (0 : ℝ) * x) ++
           (rowNormEps p.2.2).map (fun x => (0 : ℝ) * x)))).map sklearnNormalizeRow)
      (S.map sklearnNormalizeRow) := by
  induction S generalizing Z O with
  | nil => simp
  | cons s ss ih =>
    cases Z with
    | nil => simp at hZ
    | cons z zs =>
      cases O with
      | nil => simp at hO
      | cons o os =>
        simp only [List.zip_cons_cons, List.map_cons]
        refine List.Forall₂.cons ?_ (ih zs os (by simpa using hZ) (by simpa using hO))
        apply normalize_padded_row
        intro x hx
        rcases List.mem_append.mp hx with h | h <;>
          (rw [List.mem_map] at h; obtain ⟨y, -, rfl⟩ := h; exact zero_mul y)

/-- C8: with the weight triple `(semantic = 1, attributes = 0, outcome = 0)`
the composite similarity matrix `perform_clustering` computes equals -
exactly, in real arithmetic, hence within any tolerance - the pairwise
cosine similarity matrix of the raw semantic embeddings alone. -/
theorem weight_isolation (S A O : List (List ℝ))
    (hA : A.length = S.length) (hO : O.length = S.length) :
    simOf S A O ⟨1, 0, 0⟩ = cosineSimilarity S := by
  have hZW : List.Forall₂ ZExt
      ((createWeightedVectors S A O ⟨1, 0, 0⟩).map sklearnNormalizeRow)
      (S.map sklearnNormalizeRow) := by
    unfold createWeightedVectors
    by_cases hcase : 0 < (A.headD []).length
    · rw [if_pos hcase]
      exact forall₂_normalized_zip S (A.map rowNormEps) O
        (by rw [List.length_map, hA]) hO
    · rw [if_neg hcase]
      exact forall₂_normalized_zip S (List.replicate S.length [(0 : ℝ)]) O
        (List.length_replicate _ _) hO
  unfold simOf cosineSimilarity
  exact map_eq_of_forall₂ hZW _ _ (fun a b hab =>
    map_eq_of_forall₂ hZW _ _ (fun a2 b2 hab2 => ZExt_dotR hab hab2))

/-- Witness for `weight_isolation` at a concrete single-record input. -/
theorem weight_isolation_witness :
    simOf [[1]] [[5]] [[2]] ⟨1, 0, 0⟩ = cosineSimilarity [[1]] :=
  weight_isolation [[1]] [[5]] [[2]] rfl rfl

end ClusteringService
